import Mathlib

/-!
Verification of the Keyword Extraction and Relevance Ranking Engine of the
calorie_api repository (`app/route/image.py`): a shallow embedding of
`extract_food_keywords` and `search_matching_foods` together with theorems
about their behaviour.
-/

namespace CalorieApi

/-! ### Text primitives (Python string operations on char lists) -/

/-- The punctuation characters stripped by `word.strip('.,!?;:()[]')`. -/
def isPunct (c : Char) : Bool :=
  c = '.' || c = ',' || c = '!' || c = '?' || c = ';' || c = ':' ||
  c = '(' || c = ')' || c = '[' || c = ']'

/-- Python `str.lower()` (character-wise lowering). -/
def strLower (s : String) : String := ⟨s.data.map Char.toLower⟩

/-- Strip leading then trailing characters satisfying `isPunct`
(Python `str.strip('.,!?;:()[]')` on the char list). -/
def stripPunct (l : List Char) : List Char :=
  ((l.dropWhile isPunct).reverse.dropWhile isPunct).reverse

/-- The cleaning applied to each raw token: `word.strip('.,!?;:()[]')`. -/
def cleanWord (w : String) : String := ⟨stripPunct w.data⟩

/-- Fuel-driven helper realising Python `str.replace(pat, '')`:
scan left to right, deleting each occurrence of `pat`. -/
def replaceAux (pat : List Char) : Nat → List Char → List Char
  | 0, l => l
  | _ + 1, [] => []
  | fuel + 1, c :: cs =>
    if !pat.isEmpty && pat.isPrefixOf (c :: cs) then
      replaceAux pat fuel ((c :: cs).drop pat.length)
    else
      c :: replaceAux pat fuel cs

/-- Python `text.replace(pat, '')` on char lists. -/
def removePat (pat : String) (l : List Char) : List Char :=
  replaceAux pat.data l.length l

/-- Python `str.split()`: split on whitespace runs, dropping empty tokens.
`acc` holds the current in-progress token, reversed. -/
def pySplitAux : List Char → List Char → List (List Char)
  | [], acc => if acc.isEmpty then [] else [acc.reverse]
  | c :: cs, acc =>
    if c.isWhitespace then
      if acc.isEmpty then pySplitAux cs [] else acc.reverse :: pySplitAux cs []
    else
      pySplitAux cs (c :: acc)

/-- Python `str.isdigit()` restricted to ASCII digits: nonempty and all digits. -/
def isDigitStr (s : String) : Bool := !s.data.isEmpty && s.data.all Char.isDigit

/-- Python `s.endswith('.')`. -/
def endsWithPeriod (s : String) : Bool :=
  match s.data.getLast? with
  | some c => c = '.'
  | none => false

/-- Substring test: does `hay` contain `needle` as a contiguous sublist? -/
def containsSub (needle : List Char) : List Char → Bool
  | [] => needle.isEmpty
  | c :: cs => needle.isPrefixOf (c :: cs) || containsSub needle cs

/-! ### Keyword extraction (`extract_food_keywords`) -/

/-- The module-level `STOPWORDS` set of `app/route/image.py`. -/
def STOPWORDS : List String :=
  ["with", "this", "that", "from", "have", "plate", "table",
   "white", "black", "food", "bowl", "dish", "served", "there",
   "sitting", "top", "next", "image", "photo", "picture", "shows",
   "contains", "features", "appears", "looks", "like", "here's",
   "analysis", "visible", "estimated", "portion", "size", "approximately",
   "preparation", "method", "main", "items", "ingredients", "single",
   "substantial", "serving", "likely", "similar", "inches", "length"]

/-- The local `food_indicators` set of `extract_food_keywords`. -/
def foodIndicators : List String := ["main", "ingredients", "items", "food"]

/-- `i > 0 and words[i-1].strip('.,!?;:()[]') in food_indicators`. -/
def prevIsIndicator : Option String → Bool
  | some p => decide (cleanWord p ∈ foodIndicators)
  | none => false

/-- The token-processing loop of `extract_food_keywords`: `prev` is the
previous raw token (none at index 0), `keywords` the accumulating list. -/
def extractLoop (ml : Nat) : List String → Option String → List String → List String
  | [], _, keywords => keywords
  | w :: ws, prev, keywords =>
    let cw := cleanWord w
    if cw ∈ STOPWORDS ∨ cw.length ≤ ml then
      extractLoop ml ws (some w) keywords
    else if isDigitStr cw || endsWithPeriod cw then
      extractLoop ml ws (some w) keywords
    else if prevIsIndicator prev then
      extractLoop ml ws (some w) (cw :: keywords)
    else
      extractLoop ml ws (some w) (keywords ++ [cw])

/-- Order-preserving deduplication (`seen` set plus `unique_keywords` list). -/
def dedupKeep (seen : List String) : List String → List String
  | [] => []
  | k :: ks => if k ∈ seen then dedupKeep seen ks else k :: dedupKeep (k :: seen) ks

/-- The word list `extract_food_keywords` iterates over: lower-case,
strip markdown (`'**'`, `'*'`, `'#'` in that order), split on whitespace. -/
def wordsOf (description : String) : List String :=
  (pySplitAux (removePat "#" (removePat "*" (removePat "**" (strLower description).data))) []).map
    fun l => (⟨l⟩ : String)

/-- Embedding of `extract_food_keywords(description, min_length=3, max_keywords=10)`. -/
def extract_food_keywords (description : String) (min_length : Nat := 3)
    (max_keywords : Nat := 10) : List String :=
  (dedupKeep [] (extractLoop min_length (wordsOf description) none [])).take max_keywords

/-- The token-processing loop with the `clean_word.endswith('.')` test
removed; used to show that test is unreachable. -/
def extractLoopNoPeriodCheck (ml : Nat) :
    List String → Option String → List String → List String
  | [], _, keywords => keywords
  | w :: ws, prev, keywords =>
    let cw := cleanWord w
    if cw ∈ STOPWORDS ∨ cw.length ≤ ml then
      extractLoopNoPeriodCheck ml ws (some w) keywords
    else if isDigitStr cw then
      extractLoopNoPeriodCheck ml ws (some w) keywords
    else if prevIsIndicator prev then
      extractLoopNoPeriodCheck ml ws (some w) (cw :: keywords)
    else
      extractLoopNoPeriodCheck ml ws (some w) (keywords ++ [cw])

/-- `extract_food_keywords` with the `endswith('.')` branch removed. -/
def extract_keywords_no_period_check (description : String) (min_length : Nat := 3)
    (max_keywords : Nat := 10) : List String :=
  (dedupKeep [] (extractLoopNoPeriodCheck min_length (wordsOf description) none [])).take
    max_keywords

/-! ### Relevance ranking (`search_matching_foods`) -/

/-- A catalog item: the engine uses only the primary key `id` (a string
column) and the display `name`; all other columns are opaque pass-through. -/
structure Food where
  id : String
  name : String
deriving DecidableEq, Repr

/-- One entry of the `food_scores` dict: the food object, its best
`total_score` so far, and the keyword that produced that score. -/
structure ScoredMatch where
  food : Food
  score : Nat
  keyword : String
deriving DecidableEq, Repr

/-- Match-quality score: exact name match 10, prefix 5, otherwise 1. -/
def matchQuality (name kw : String) : Nat :=
  if strLower name = strLower kw then 10
  else if (strLower kw).data.isPrefixOf (strLower name).data then 5
  else 1

/-- `total_score = position_score + match_score` for the keyword at `idx`
in a sequence of length `n`. -/
def scoreFor (n idx : Nat) (f : Food) (kw : String) : Nat :=
  (n - idx) + matchQuality f.name kw

/-- The `food_scores` dict update: first entry with this food id is
replaced in place iff the new score strictly exceeds the stored one;
an absent id is appended (dict insertion order). -/
def updateScores (es : List ScoredMatch) (f : Food) (s : Nat) (kw : String) :
    List ScoredMatch :=
  match es with
  | [] => [⟨f, s, kw⟩]
  | e :: rest =>
    if e.food.id = f.id then
      (if e.score < s then ⟨f, s, kw⟩ else e) :: rest
    else
      e :: updateScores rest f s kw

/-- The inner `for food in foods` loop for the keyword at index `idx`. -/
def processKeyword (n idx : Nat) (kw : String) (foods : List Food)
    (es : List ScoredMatch) : List ScoredMatch :=
  foods.foldl (fun es f => updateScores es f (scoreFor n idx f kw) kw) es

/-- The outer `for idx, keyword in enumerate(keywords)` loop. A lookup
result of `none` models the caught database exception: the keyword
contributes nothing. -/
def buildScoresAux (lookup : String → Option (List Food)) (n : Nat) :
    Nat → List String → List ScoredMatch → List ScoredMatch
  | _, [], es => es
  | idx, kw :: kws, es =>
    buildScoresAux lookup n (idx + 1) kws
      (match lookup kw with
       | none => es
       | some foods => processKeyword n idx kw foods es)

/-- The fully built `food_scores` table, in dict insertion order. -/
def buildScores (lookup : String → Option (List Food)) (keywords : List String) :
    List ScoredMatch :=
  buildScoresAux lookup keywords.length 0 keywords []

/-- Stable descending insertion: place `a` before the first entry whose
score does not exceed `a`'s. -/
def insertDesc (a : ScoredMatch) : List ScoredMatch → List ScoredMatch
  | [] => [a]
  | y :: ys => if y.score ≤ a.score then a :: y :: ys else y :: insertDesc a ys

/-- Python `sorted(food_scores.values(), key=..., reverse=True)`: a stable
sort by score descending over insertion order. -/
def sortByScoreDesc : List ScoredMatch → List ScoredMatch
  | [] => []
  | a :: l => insertDesc a (sortByScoreDesc l)

/-- Embedding of `search_matching_foods(keywords, limit_per_keyword, max_total)`.
The catalog query (`Food.query.filter(Food.name.ilike(...)).limit(...)`),
including its limit and possible failure, is the `lookup` capability. -/
def search_matching_foods (lookup : String → Option (List Food))
    (keywords : List String) (max_total : Nat := 8) : List Food :=
  ((sortByScoreDesc (buildScores lookup keywords)).take max_total).map (·.food)

/-- The concrete catalog lookup of the source: case-insensitive substring
match on the name (`ilike '%kw%'`), capped at `limit` rows, never failing. -/
def catalogLookup (catalog : List Food) (limit : Nat) (kw : String) :
    Option (List Food) :=
  some ((catalog.filter fun f => containsSub (strLower kw).data (strLower f.name).data).take limit)

/-- The end-to-end ranking as called by the route handlers: default
`limit_per_keyword = 3`, `max_total = 8`, over an in-memory catalog. -/
def searchWithCatalog (catalog : List Food) (keywords : List String) : List Food :=
  search_matching_foods (catalogLookup catalog 3) keywords 8

/-- All foods returned across the lookups of a ranking call
(a failed lookup contributes none). -/
def seenFoods (lookup : String → Option (List Food)) (keywords : List String) :
    List Food :=
  keywords.flatMap fun kw => (lookup kw).getD []

/-- Dict lookup in the scored-match table: first entry with this food id. -/
def findEntry (i : String) : List ScoredMatch → Option ScoredMatch
  | [] => none
  | e :: es => if e.food.id = i then some e else findEntry i es

/-- Replay a flat sequence of observations (food, total score, keyword)
through the table update, as the nested ranking loops do. -/
def applyObs (obs : List (Food × Nat × String)) (es : List ScoredMatch) :
    List ScoredMatch :=
  obs.foldl (fun es o => updateScores es o.1 o.2.1 o.2.2) es

/-- All total scores observed for the item id `i` in an observation list. -/
def scoresFor (i : String) (obs : List (Food × Nat × String)) : List Nat :=
  (obs.filter fun o => o.1.id = i).map fun o => o.2.1

/-- The flat sequence of (food, total score, keyword) observations a
ranking call makes, in keyword-then-lookup order. -/
def obsOfAux (lookup : String → Option (List Food)) (n : Nat) :
    Nat → List String → List (Food × Nat × String)
  | _, [] => []
  | idx, kw :: kws =>
    (match lookup kw with
     | none => []
     | some foods => foods.map fun f => (f, scoreFor n idx f kw, kw)) ++
      obsOfAux lookup n (idx + 1) kws

/-- All observations of one ranking call over `keywords`. -/
def obsOf (lookup : String → Option (List Food)) (keywords : List String) :
    List (Food × Nat × String) :=
  obsOfAux lookup keywords.length 0 keywords

/-- A three-keyword lookup whose middle keyword fails (raises), used to
exhibit partial-failure tolerance. -/
def failMidLookup : String → Option (List Food) := fun kw =>
  if kw = "pasta" then some [⟨"p1", "Pasta"⟩]
  else if kw = "soup" then none
  else if kw = "bread" then some [⟨"b1", "Bread"⟩]
  else some []

/-! ### Lemmas about keyword extraction -/

theorem mem_extractLoop (ml : Nat) :
    ∀ (ws : List String) (prev : Option String) (acc : List String) (x : String),
    x ∈ extractLoop ml ws prev acc → x ∈ acc ∨ (x ∉ STOPWORDS ∧ ml < x.length) := by
  intro ws
  induction ws with
  | nil => intro prev acc x hx; exact Or.inl hx
  | cons w ws ih =>
    intro prev acc x hx
    simp only [extractLoop] at hx
    by_cases h1 : cleanWord w ∈ STOPWORDS ∨ (cleanWord w).length ≤ ml
    · rw [if_pos h1] at hx
      exact ih _ _ _ hx
    · rw [if_neg h1] at hx
      rw [not_or] at h1
      obtain ⟨hs, hl⟩ := h1
      by_cases h2 : (isDigitStr (cleanWord w) || endsWithPeriod (cleanWord w)) = true
      · rw [if_pos h2] at hx
        exact ih _ _ _ hx
      · rw [if_neg h2] at hx
        by_cases h3 : prevIsIndicator prev = true
        · rw [if_pos h3] at hx
          rcases ih _ _ _ hx with h | h
          · rcases List.mem_cons.mp h with rfl | h
            · exact Or.inr ⟨hs, Nat.lt_of_not_le hl⟩
            · exact Or.inl h
          · exact Or.inr h
        · rw [if_neg h3] at hx
          rcases ih _ _ _ hx with h | h
          · rcases List.mem_append.mp h with h | h
            · exact Or.inl h
            · rcases List.mem_singleton.mp h with rfl
              exact Or.inr ⟨hs, Nat.lt_of_not_le hl⟩
          · exact Or.inr h

theorem extractLoop_all_skip (ml : Nat) :
    ∀ (ws : List String) (prev : Option String) (acc : List String),
    (∀ w ∈ ws, cleanWord w ∈ STOPWORDS ∨ (cleanWord w).length ≤ ml) →
    extractLoop ml ws prev acc = acc := by
  intro ws
  induction ws with
  | nil => intro prev acc _; rfl
  | cons w ws ih =>
    intro prev acc h
    simp only [extractLoop]
    rw [if_pos (h w (List.mem_cons_self w ws))]
    exact ih _ _ fun w hw => h w (List.mem_cons_of_mem _ hw)

theorem mem_dedupKeep :
    ∀ (l seen : List String) (x : String), x ∈ dedupKeep seen l → x ∈ l := by
  intro l
  induction l with
  | nil => intro seen x hx; exact absurd hx (List.not_mem_nil x)
  | cons k ks ih =>
    intro seen x hx
    simp only [dedupKeep] at hx
    by_cases h : k ∈ seen
    · rw [if_pos h] at hx
      exact List.mem_cons_of_mem _ (ih _ _ hx)
    · rw [if_neg h] at hx
      rcases List.mem_cons.mp hx with rfl | hx
      · exact List.mem_cons_self _ _
      · exact List.mem_cons_of_mem _ (ih _ _ hx)

theorem dedupKeep_not_mem_seen :
    ∀ (l seen : List String) (x : String), x ∈ seen → x ∉ dedupKeep seen l := by
  intro l
  induction l with
  | nil => intro seen x _ hx; exact absurd hx (List.not_mem_nil x)
  | cons k ks ih =>
    intro seen x hseen hx
    simp only [dedupKeep] at hx
    by_cases h : k ∈ seen
    · rw [if_pos h] at hx
      exact ih _ _ hseen hx
    · rw [if_neg h] at hx
      rcases List.mem_cons.mp hx with rfl | hx
      · exact h hseen
      · exact ih _ _ (List.mem_cons_of_mem _ hseen) hx

theorem dedupKeep_nodup : ∀ (l seen : List String), (dedupKeep seen l).Nodup := by
  intro l
  induction l with
  | nil => intro seen; exact List.nodup_nil
  | cons k ks ih =>
    intro seen
    simp only [dedupKeep]
    by_cases h : k ∈ seen
    · rw [if_pos h]; exact ih _
    · rw [if_neg h]
      exact List.nodup_cons.mpr
        ⟨dedupKeep_not_mem_seen ks (k :: seen) k (List.mem_cons_self _ _), ih _⟩

/-- Every keyword returned by `extract_food_keywords` survived the filters:
it is not a stopword and is strictly longer than `min_length`. -/
theorem mem_extract_good (d : String) (ml mk : Nat) (k : String)
    (hk : k ∈ extract_food_keywords d ml mk) : k ∉ STOPWORDS ∧ ml < k.length := by
  have h1 : k ∈ dedupKeep [] (extractLoop ml (wordsOf d) none []) :=
    List.mem_of_mem_take hk
  have h2 : k ∈ extractLoop ml (wordsOf d) none [] := mem_dedupKeep _ _ _ h1
  rcases mem_extractLoop ml _ _ _ _ h2 with h | h
  · exact absurd h (List.not_mem_nil k)
  · exact h

theorem extract_nodup (d : String) (ml mk : Nat) :
    (extract_food_keywords d ml mk).Nodup :=
  List.Nodup.sublist (List.take_sublist _ _)
    (dedupKeep_nodup (extractLoop ml (wordsOf d) none []) [])

theorem extract_length_le (d : String) (ml mk : Nat) :
    (extract_food_keywords d ml mk).length ≤ mk :=
  List.length_take_le _ _

theorem extract_all_skip (d : String) (ml mk : Nat)
    (h : ∀ w ∈ wordsOf d, cleanWord w ∈ STOPWORDS ∨ (cleanWord w).length ≤ ml) :
    extract_food_keywords d ml mk = [] := by
  unfold extract_food_keywords
  rw [extractLoop_all_skip ml _ _ _ h]
  simp [dedupKeep]

theorem head_dropWhile_punct :
    ∀ (l : List Char) (c : Char), (l.dropWhile isPunct).head? = some c →
    isPunct c = false := by
  intro l
  induction l with
  | nil => intro c hc; simp [List.dropWhile] at hc
  | cons a l ih =>
    intro c hc
    simp only [List.dropWhile] at hc
    cases h : isPunct a with
    | true =>
      simp only [h] at hc
      exact ih c hc
    | false =>
      simp only [h, List.head?, Option.some.injEq] at hc
      rw [← hc]
      exact h

/-- The cleaned token never ends in a period: the trailing strip removed it. -/
theorem endsWithPeriod_cleanWord (w : String) :
    endsWithPeriod (cleanWord w) = false := by
  show endsWithPeriod ⟨stripPunct w.data⟩ = false
  unfold endsWithPeriod stripPunct
  rw [List.getLast?_reverse]
  cases hh : (((w.data.dropWhile isPunct).reverse).dropWhile isPunct).head? with
  | none => rfl
  | some c =>
    have hc : isPunct c = false := head_dropWhile_punct _ c hh
    have : c ≠ '.' := by
      intro h
      rw [h] at hc
      simp [isPunct] at hc
    simp [this]

theorem extractLoop_eq_no_period_check (ml : Nat) :
    ∀ (ws : List String) (prev : Option String) (acc : List String),
    extractLoop ml ws prev acc = extractLoopNoPeriodCheck ml ws prev acc := by
  intro ws
  induction ws with
  | nil => intro prev acc; rfl
  | cons w ws ih =>
    intro prev acc
    simp only [extractLoop, extractLoopNoPeriodCheck, endsWithPeriod_cleanWord,
      Bool.or_false]
    by_cases h1 : cleanWord w ∈ STOPWORDS ∨ (cleanWord w).length ≤ ml
    · rw [if_pos h1, if_pos h1, ih]
    · rw [if_neg h1, if_neg h1]
      by_cases h2 : isDigitStr (cleanWord w) = true
      · rw [if_pos h2, if_pos h2, ih]
      · rw [if_neg h2, if_neg h2]
        by_cases h3 : prevIsIndicator prev = true
        · rw [if_pos h3, if_pos h3, ih]
        · rw [if_neg h3, if_neg h3, ih]

/-- The one-token step of the extraction loop for a surviving token:
promotion to the front after an indicator, append otherwise. -/
theorem extractLoop_step (ml : Nat) (w p : String) (ws acc : List String)
    (hs : cleanWord w ∉ STOPWORDS) (hl : ml < (cleanWord w).length)
    (hd : isDigitStr (cleanWord w) = false) :
    extractLoop ml (w :: ws) (some p) acc =
      extractLoop ml ws (some w)
        (if cleanWord p ∈ foodIndicators then cleanWord w :: acc
         else acc ++ [cleanWord w]) := by
  simp only [extractLoop]
  rw [if_neg (by rw [not_or]; exact ⟨hs, Nat.not_le_of_lt hl⟩)]
  rw [if_neg (by rw [hd, endsWithPeriod_cleanWord]; simp)]
  by_cases hp : cleanWord p ∈ foodIndicators
  · rw [if_pos hp]
    have : prevIsIndicator (some p) = true := by
      simp [prevIsIndicator, hp]
    rw [if_pos this]
  · rw [if_neg hp]
    have : ¬ prevIsIndicator (some p) = true := by
      simp [prevIsIndicator, hp]
    rw [if_neg this]

/-! ### Claim theorems about keyword extraction -/

/-- Claim C1 (counterexample): on the description
"Cheeseburger with fries and a side salad, medium portion", `extract` does
not return the claimed sequence `["cheeseburger", "fries", "salad",
"medium", "portion"]` — "side" is not a stopword and survives, while
"portion" is a stopword and is filtered out. -/
theorem end_to_end_c1_counterexample :
    extract_food_keywords "Cheeseburger with fries and a side salad, medium portion" 3 10 ≠
      ["cheeseburger", "fries", "salad", "medium", "portion"] := by decide

/-- Claim C1 (amended): the description yields the keyword sequence
`["cheeseburger", "fries", "side", "salad", "medium"]`, and ranking that
sequence against a catalog containing "Cheeseburger", "French Fries" and
"Garden Salad" returns exactly those three items with "Cheeseburger" first. -/
theorem end_to_end_c1_amended :
    extract_food_keywords "Cheeseburger with fries and a side salad, medium portion" 3 10 =
      ["cheeseburger", "fries", "side", "salad", "medium"] ∧
    searchWithCatalog
        [⟨"1", "Cheeseburger"⟩, ⟨"2", "French Fries"⟩, ⟨"3", "Garden Salad"⟩]
        (extract_food_keywords
          "Cheeseburger with fries and a side salad, medium portion" 3 10) =
      [⟨"1", "Cheeseburger"⟩, ⟨"2", "French Fries"⟩, ⟨"3", "Garden Salad"⟩] ∧
    (searchWithCatalog
        [⟨"1", "Cheeseburger"⟩, ⟨"2", "French Fries"⟩, ⟨"3", "Garden Salad"⟩]
        (extract_food_keywords
          "Cheeseburger with fries and a side salad, medium portion" 3 10)).head? =
      some ⟨"1", "Cheeseburger"⟩ := by
  refine ⟨by decide, by decide, by decide⟩

/-- Claim C5: a surviving token whose previous raw token cleans to an
indicator word is inserted at the front of the accumulating list,
otherwise appended at the end; in particular "grilled" (after
"ingredients:") is promoted to the front for
"Main ingredients: grilled salmon with asparagus". -/
theorem promotion_rule_c5 :
    (∀ (ml : Nat) (w p : String) (ws acc : List String),
      cleanWord w ∉ STOPWORDS → ml < (cleanWord w).length →
      isDigitStr (cleanWord w) = false →
      extractLoop ml (w :: ws) (some p) acc =
        extractLoop ml ws (some w)
          (if cleanWord p ∈ foodIndicators then cleanWord w :: acc
           else acc ++ [cleanWord w])) ∧
    extract_food_keywords "Main ingredients: grilled salmon with asparagus" 3 10 =
      ["grilled", "salmon", "asparagus"] ∧
    (extract_food_keywords "Main ingredients: grilled salmon with asparagus" 3 10).head? =
      some "grilled" :=
  ⟨fun ml w p ws acc hs hl hd => extractLoop_step ml w p ws acc hs hl hd,
   by decide, by decide⟩

/-- Witness for C5: the promotion step applied at the concrete token
"grilled" following the indicator token "ingredients:". -/
theorem promotion_rule_c5_witness :
    extractLoop 3 ["grilled", "salmon"] (some "ingredients:") [] =
      extractLoop 3 ["salmon"] (some "grilled") ["grilled"] := by
  rw [promotion_rule_c5.1 3 "grilled" "ingredients:" ["salmon"] []
    (by decide) (by decide) (by decide)]
  decide

/-- Claim C6: extraction never returns a stopword or a token of length
at most `min_length`, never returns duplicates, returns at most
`max_keywords` keywords, and returns the empty sequence when every word
of the description cleans to a stopword or short token. -/
theorem extract_invariants_c6 :
    (∀ (d : String) (ml mk : Nat) (k : String),
       k ∈ extract_food_keywords d ml mk → k ∉ STOPWORDS ∧ ml < k.length) ∧
    (∀ (d : String) (ml mk : Nat), (extract_food_keywords d ml mk).Nodup) ∧
    (∀ (d : String) (ml mk : Nat), (extract_food_keywords d ml mk).length ≤ mk) ∧
    (∀ (d : String) (ml mk : Nat),
       (∀ w ∈ wordsOf d, cleanWord w ∈ STOPWORDS ∨ (cleanWord w).length ≤ ml) →
       extract_food_keywords d ml mk = []) :=
  ⟨mem_extract_good, extract_nodup, extract_length_le, extract_all_skip⟩

/-- Witness for C6 at concrete inputs: "cheeseburger" is a returned
keyword and is no stopword; an all-stopword description extracts to []. -/
theorem extract_invariants_c6_witness :
    ("cheeseburger" ∉ STOPWORDS ∧ 3 < "cheeseburger".length) ∧
    extract_food_keywords "portion with this" 3 10 = [] :=
  ⟨extract_invariants_c6.1
      "Cheeseburger with fries and a side salad, medium portion" 3 10
      "cheeseburger" (by decide),
   extract_invariants_c6.2.2.2 "portion with this" 3 10 (by decide)⟩

/-- Claim C9: every indicator word is also a stopword, so extraction
never returns an indicator word. -/
theorem indicator_stopwords_c9 :
    (∀ w ∈ foodIndicators, w ∈ STOPWORDS) ∧
    (∀ (d : String) (ml mk : Nat) (k : String),
      k ∈ extract_food_keywords d ml mk → k ∉ foodIndicators) := by
  refine ⟨by decide, fun d ml mk k hk hind => ?_⟩
  exact (mem_extract_good d ml mk k hk).1
    ((by decide : ∀ w ∈ foodIndicators, w ∈ STOPWORDS) k hind)

/-- Witness for C9 at concrete inputs: "food" is an indicator and a
stopword; the extracted keyword "salmon" is no indicator word. -/
theorem indicator_stopwords_c9_witness :
    "food" ∈ STOPWORDS ∧ "salmon" ∉ foodIndicators :=
  ⟨indicator_stopwords_c9.1 "food" (by decide),
   indicator_stopwords_c9.2 "Main ingredients: grilled salmon" 3 10 "salmon"
     (by decide)⟩

/-- Claim C10: the `endswith('.')` discard branch is unreachable — a
cleaned token never ends in a period — so extraction coincides with the
variant that omits the check. -/
theorem period_check_unreachable_c10 :
    (∀ w : String, endsWithPeriod (cleanWord w) = false) ∧
    (∀ (d : String) (ml mk : Nat),
      extract_food_keywords d ml mk = extract_keywords_no_period_check d ml mk) := by
  refine ⟨endsWithPeriod_cleanWord, fun d ml mk => ?_⟩
  unfold extract_food_keywords extract_keywords_no_period_check
  rw [extractLoop_eq_no_period_check]

/-! ### Lemmas about the scored-match table -/

theorem findEntry_updateScores_same :
    ∀ (es : List ScoredMatch) (f : Food) (s : Nat) (kw : String),
    findEntry f.id (updateScores es f s kw) =
      some (match findEntry f.id es with
            | none => ⟨f, s, kw⟩
            | some e => if e.score < s then ⟨f, s, kw⟩ else e) := by
  intro es f s kw
  induction es with
  | nil => simp [updateScores, findEntry]
  | cons e rest ih =>
    by_cases h : e.food.id = f.id
    · by_cases hs2 : e.score < s
      · simp [updateScores, findEntry, h, hs2]
      · simp [updateScores, findEntry, h, hs2]
    · simp [updateScores, findEntry, h, ih]

theorem findEntry_updateScores_other :
    ∀ (es : List ScoredMatch) (f : Food) (s : Nat) (kw : String) (j : String),
    j ≠ f.id → findEntry j (updateScores es f s kw) = findEntry j es := by
  intro es f s kw j hj
  have hfj : ¬ f.id = j := fun hh => hj hh.symm
  induction es with
  | nil => simp [updateScores, findEntry, hfj]
  | cons e rest ih =>
    by_cases h : e.food.id = f.id
    · have he : ¬ e.food.id = j := fun hh => hj (hh.symm.trans h)
      by_cases hs2 : e.score < s <;>
        simp [updateScores, findEntry, h, hs2, he, hfj]
    · simp [updateScores, findEntry, h, ih]

theorem updateScores_no_exceed :
    ∀ (es : List ScoredMatch) (f : Food) (s : Nat) (kw : String) (e : ScoredMatch),
    findEntry f.id es = some e → s ≤ e.score → updateScores es f s kw = es := by
  intro es f s kw
  induction es with
  | nil => intro e he _; simp [findEntry] at he
  | cons e' rest ih =>
    intro e he hs
    by_cases h : e'.food.id = f.id
    · simp only [findEntry, if_pos h, Option.some.injEq] at he
      subst he
      have hnlt : ¬ e'.score < s := Nat.not_lt.mpr hs
      simp [updateScores, h, hnlt]
    · simp only [findEntry, if_neg h] at he
      simp [updateScores, h, ih e he hs]

theorem updateScores_map_id :
    ∀ (es : List ScoredMatch) (f : Food) (s : Nat) (kw : String),
    (updateScores es f s kw).map (fun e => e.food.id) =
      if f.id ∈ es.map (fun e => e.food.id) then es.map (fun e => e.food.id)
      else es.map (fun e => e.food.id) ++ [f.id] := by
  intro es f s kw
  induction es with
  | nil => simp [updateScores]
  | cons e rest ih =>
    by_cases h : e.food.id = f.id
    · by_cases hs2 : e.score < s <;>
        simp [updateScores, h, hs2, List.mem_cons]
    · have hne : ¬ f.id = e.food.id := fun hh => h hh.symm
      by_cases hm : f.id ∈ rest.map (fun e => e.food.id) <;>
        simp [updateScores, h, hne, hm, List.mem_cons, ih]

theorem updateScores_nodup_id (es : List ScoredMatch) (f : Food) (s : Nat)
    (kw : String) (h : (es.map (fun e => e.food.id)).Nodup) :
    ((updateScores es f s kw).map (fun e => e.food.id)).Nodup := by
  rw [updateScores_map_id]
  split
  · exact h
  · next hm => simp [List.nodup_append, h, hm]

theorem updateScores_id_subset (es : List ScoredMatch) (f : Food) (s : Nat)
    (kw : String) :
    (updateScores es f s kw).map (fun e => e.food.id) ⊆
      es.map (fun e => e.food.id) ++ [f.id] := by
  rw [updateScores_map_id]
  split
  · exact List.subset_append_left _ _
  · exact List.Subset.refl _

theorem processKeyword_nodup_id (n idx : Nat) (kw : String) :
    ∀ (foods : List Food) (es : List ScoredMatch),
    ((es.map fun e => e.food.id)).Nodup →
    ((processKeyword n idx kw foods es).map fun e => e.food.id).Nodup := by
  intro foods
  induction foods with
  | nil => intro es h; exact h
  | cons f fs ih =>
    intro es h
    simp only [processKeyword, List.foldl_cons] at *
    exact ih _ (updateScores_nodup_id es f _ kw h)

theorem processKeyword_id_subset (n idx : Nat) (kw : String) :
    ∀ (foods : List Food) (es : List ScoredMatch),
    (processKeyword n idx kw foods es).map (fun e => e.food.id) ⊆
      es.map (fun e => e.food.id) ++ foods.map Food.id := by
  intro foods
  induction foods with
  | nil => intro es; simp [processKeyword]
  | cons f fs ih =>
    intro es x hx
    simp only [processKeyword, List.foldl_cons] at hx
    have h1 := ih (updateScores es f (scoreFor n idx f kw) kw) hx
    simp only [List.mem_append, List.map_cons, List.mem_cons] at *
    rcases h1 with h1 | h1
    · have h2 := updateScores_id_subset es f (scoreFor n idx f kw) kw h1
      simp only [List.mem_append, List.mem_singleton] at h2
      rcases h2 with h2 | h2
      · exact Or.inl h2
      · exact Or.inr (Or.inl h2)
    · exact Or.inr (Or.inr h1)

theorem buildScoresAux_nodup_id (lookup : String → Option (List Food)) (n : Nat) :
    ∀ (kws : List String) (idx : Nat) (es : List ScoredMatch),
    ((es.map fun e => e.food.id)).Nodup →
    ((buildScoresAux lookup n idx kws es).map fun e => e.food.id).Nodup := by
  intro kws
  induction kws with
  | nil => intro idx es h; exact h
  | cons kw kws ih =>
    intro idx es h
    simp only [buildScoresAux]
    cases hlk : lookup kw with
    | none => exact ih _ _ h
    | some foods => exact ih _ _ (processKeyword_nodup_id n idx kw foods es h)

theorem buildScoresAux_id_subset (lookup : String → Option (List Food)) (n : Nat) :
    ∀ (kws : List String) (idx : Nat) (es : List ScoredMatch),
    (buildScoresAux lookup n idx kws es).map (fun e => e.food.id) ⊆
      es.map (fun e => e.food.id) ++ (seenFoods lookup kws).map Food.id := by
  intro kws
  induction kws with
  | nil => intro idx es; simp [buildScoresAux, seenFoods]
  | cons kw kws ih =>
    intro idx es x hx
    simp only [buildScoresAux] at hx
    cases hlk : lookup kw with
    | none =>
      rw [hlk] at hx
      have h1 := ih (idx + 1) es hx
      simp only [seenFoods, List.flatMap_cons, hlk, Option.getD_none,
        List.nil_append, List.mem_append] at *
      exact h1
    | some foods =>
      rw [hlk] at hx
      have h1 := ih (idx + 1) (processKeyword n idx kw foods es) hx
      simp only [seenFoods, List.flatMap_cons, hlk, Option.getD_some,
        List.map_append, List.mem_append] at *
      rcases h1 with h1 | h1
      · have h2 := processKeyword_id_subset n idx kw foods es h1
        simp only [List.mem_append] at h2
        rcases h2 with h2 | h2
        · exact Or.inl h2
        · exact Or.inr (Or.inl h2)
      · exact Or.inr (Or.inr h1)

theorem buildScores_nodup_id (lookup : String → Option (List Food))
    (kws : List String) :
    ((buildScores lookup kws).map fun e => e.food.id).Nodup :=
  buildScoresAux_nodup_id lookup kws.length kws 0 [] (by simp)

theorem buildScores_id_subset (lookup : String → Option (List Food))
    (kws : List String) :
    (buildScores lookup kws).map (fun e => e.food.id) ⊆
      (seenFoods lookup kws).map Food.id := by
  have h := buildScoresAux_id_subset lookup kws.length kws 0 []
  simpa [buildScores] using h

/-- Invariant of the running table: a stored entry dominates every score
observed for its id, descends from the initial table or an observation,
and never decreases. -/
theorem applyObs_invariant :
    ∀ (obs : List (Food × Nat × String)) (es : List ScoredMatch) (i : String)
      (e : ScoredMatch), findEntry i (applyObs obs es) = some e →
    (findEntry i es = some e ∨ e.score ∈ scoresFor i obs) ∧
    (∀ s ∈ scoresFor i obs, s ≤ e.score) ∧
    (∀ e0, findEntry i es = some e0 → e0.score ≤ e.score) := by
  intro obs
  induction obs with
  | nil =>
    intro es i e he
    have he' : findEntry i es = some e := he
    refine ⟨Or.inl he', by simp [scoresFor], ?_⟩
    intro e0 he0
    have heq : e = e0 := by rw [he'] at he0; exact Option.some.inj he0
    rw [← heq]
  | cons o obs ih =>
    intro es i e he
    have hstep : applyObs (o :: obs) es = applyObs obs (updateScores es o.1 o.2.1 o.2.2) :=
      rfl
    rw [hstep] at he
    obtain ⟨ha, hb, hc⟩ := ih (updateScores es o.1 o.2.1 o.2.2) i e he
    by_cases hoi : o.1.id = i
    · have hsf : scoresFor i (o :: obs) = o.2.1 :: scoresFor i obs := by
        simp [scoresFor, List.filter_cons, hoi]
      have hsame := findEntry_updateScores_same es o.1 o.2.1 o.2.2
      rw [hoi] at hsame
      cases hfe : findEntry i es with
      | none =>
        rw [hfe] at hsame
        have hsame2 : findEntry i (updateScores es o.1 o.2.1 o.2.2) =
            some ⟨o.1, o.2.1, o.2.2⟩ := hsame
        refine ⟨?_, ?_, ?_⟩
        · rcases ha with ha | ha
          · rw [hsame2, Option.some.injEq] at ha
            right
            rw [hsf, ← ha]
            exact List.mem_cons_self _ _
          · right
            rw [hsf]
            exact List.mem_cons_of_mem _ ha
        · intro s hs
          rw [hsf] at hs
          rcases List.mem_cons.mp hs with rfl | hs
          · exact hc _ hsame2
          · exact hb s hs
        · intro e0 he0
          exact Option.noConfusion he0
      | some e0 =>
        rw [hfe] at hsame
        have hsame2 : findEntry i (updateScores es o.1 o.2.1 o.2.2) =
            some (if e0.score < o.2.1 then
              (⟨o.1, o.2.1, o.2.2⟩ : ScoredMatch) else e0) := hsame
        have hm1 : o.2.1 ≤ (if e0.score < o.2.1 then
            (⟨o.1, o.2.1, o.2.2⟩ : ScoredMatch) else e0).score := by
          split
          · exact Nat.le_refl _
          · next hlt => exact Nat.le_of_not_lt hlt
        have hm2 : e0.score ≤ (if e0.score < o.2.1 then
            (⟨o.1, o.2.1, o.2.2⟩ : ScoredMatch) else e0).score := by
          split
          · next hlt => exact Nat.le_of_lt hlt
          · exact Nat.le_refl _
        refine ⟨?_, ?_, ?_⟩
        · rcases ha with ha | ha
          · rw [hsame2, Option.some.injEq] at ha
            by_cases hlt : e0.score < o.2.1
            · rw [if_pos hlt] at ha
              right
              rw [hsf, ← ha]
              exact List.mem_cons_self _ _
            · rw [if_neg hlt] at ha
              left
              rw [ha]
          · right
            rw [hsf]
            exact List.mem_cons_of_mem _ ha
        · intro s hs
          rw [hsf] at hs
          rcases List.mem_cons.mp hs with rfl | hs
          · exact Nat.le_trans hm1 (hc _ hsame2)
          · exact hb s hs
        · intro e1 he1
          have heq : e0 = e1 := Option.some.inj he1
          rw [← heq]
          exact Nat.le_trans hm2 (hc _ hsame2)
    · have hne : i ≠ o.1.id := fun hh => hoi hh.symm
      have hother := findEntry_updateScores_other es o.1 o.2.1 o.2.2 i hne
      have hsf : scoresFor i (o :: obs) = scoresFor i obs := by
        simp [scoresFor, List.filter_cons, hoi]
      refine ⟨?_, ?_, ?_⟩
      · rcases ha with ha | ha
        · left; rw [← hother, ha]
        · right; rw [hsf]; exact ha
      · intro s hs
        rw [hsf] at hs
        exact hb s hs
      · intro e0 he0
        rw [← hother] at he0
        exact hc e0 he0

theorem processKeyword_eq_applyObs (n idx : Nat) (kw : String)
    (foods : List Food) (es : List ScoredMatch) :
    processKeyword n idx kw foods es =
      applyObs (foods.map fun f => (f, scoreFor n idx f kw, kw)) es := by
  simp [processKeyword, applyObs, List.foldl_map]

theorem applyObs_append (a b : List (Food × Nat × String)) (es : List ScoredMatch) :
    applyObs (a ++ b) es = applyObs b (applyObs a es) := by
  simp [applyObs, List.foldl_append]

theorem buildScoresAux_eq_applyObs (lookup : String → Option (List Food)) (n : Nat) :
    ∀ (kws : List String) (idx : Nat) (es : List ScoredMatch),
    buildScoresAux lookup n idx kws es = applyObs (obsOfAux lookup n idx kws) es := by
  intro kws
  induction kws with
  | nil => intro idx es; rfl
  | cons kw kws ih =>
    intro idx es
    simp only [buildScoresAux, obsOfAux, applyObs_append]
    cases hlk : lookup kw with
    | none => simp [ih, applyObs]
    | some foods => simp [ih, processKeyword_eq_applyObs]

/-- The `food_scores` table of a ranking call is the replay of its flat
observation sequence through the update rule. -/
theorem buildScores_eq_applyObs (lookup : String → Option (List Food))
    (keywords : List String) :
    buildScores lookup keywords = applyObs (obsOf lookup keywords) [] :=
  buildScoresAux_eq_applyObs lookup keywords.length keywords 0 []

/-! ### Lemmas about the stable descending sort -/

theorem insertDesc_perm (a : ScoredMatch) :
    ∀ l : List ScoredMatch, List.Perm (insertDesc a l) (a :: l) := by
  intro l
  induction l with
  | nil => exact List.Perm.refl _
  | cons y ys ih =>
    simp only [insertDesc]
    split
    · exact List.Perm.refl _
    · exact (List.Perm.cons y ih).trans (List.Perm.swap a y ys)

theorem sortByScoreDesc_perm :
    ∀ l : List ScoredMatch, List.Perm (sortByScoreDesc l) l := by
  intro l
  induction l with
  | nil => exact List.Perm.refl _
  | cons a l ih =>
    exact (insertDesc_perm a (sortByScoreDesc l)).trans (List.Perm.cons a ih)

theorem insertDesc_sorted (a : ScoredMatch) :
    ∀ l : List ScoredMatch, List.Pairwise (fun x y => y.score ≤ x.score) l →
    List.Pairwise (fun x y => y.score ≤ x.score) (insertDesc a l) := by
  intro l
  induction l with
  | nil => intro _; exact List.pairwise_singleton _ _
  | cons y ys ih =>
    intro hp
    rw [List.pairwise_cons] at hp
    obtain ⟨hy, hys⟩ := hp
    simp only [insertDesc]
    split
    · next hle =>
      rw [List.pairwise_cons]
      refine ⟨?_, List.pairwise_cons.mpr ⟨hy, hys⟩⟩
      intro z hz
      rcases List.mem_cons.mp hz with rfl | hz
      · exact hle
      · exact Nat.le_trans (hy z hz) hle
    · next hgt =>
      rw [List.pairwise_cons]
      refine ⟨?_, ih hys⟩
      intro z hz
      have hz2 := (insertDesc_perm a ys).mem_iff.mp hz
      rcases List.mem_cons.mp hz2 with rfl | hz2
      · exact Nat.le_of_lt (Nat.lt_of_not_le hgt)
      · exact hy z hz2

theorem sortByScoreDesc_sorted :
    ∀ l : List ScoredMatch,
    List.Pairwise (fun x y => y.score ≤ x.score) (sortByScoreDesc l) := by
  intro l
  induction l with
  | nil => exact List.Pairwise.nil
  | cons a l ih => exact insertDesc_sorted a (sortByScoreDesc l) ih

theorem filter_insertDesc (a : ScoredMatch) (s : Nat) :
    ∀ l : List ScoredMatch,
    (insertDesc a l).filter (fun e => e.score = s) =
      if a.score = s then a :: l.filter (fun e => e.score = s)
      else l.filter (fun e => e.score = s) := by
  intro l
  induction l with
  | nil => by_cases h : a.score = s <;> simp [insertDesc, h]
  | cons y ys ih =>
    simp only [insertDesc]
    by_cases hle : y.score ≤ a.score
    · rw [if_pos hle]
      by_cases h : a.score = s <;> simp [List.filter_cons, h]
    · rw [if_neg hle]
      by_cases h : a.score = s
      · have hys : ¬ y.score = s := fun hh => hle (Nat.le_of_eq (hh.trans h.symm))
        simp [List.filter_cons, ih, h, hys]
      · simp [List.filter_cons, ih, h]

/-- Stability of the sort: for each score value the entries with that
score keep their original (insertion) order. -/
theorem filter_sortByScoreDesc (s : Nat) :
    ∀ l : List ScoredMatch,
    (sortByScoreDesc l).filter (fun e => e.score = s) =
      l.filter (fun e => e.score = s) := by
  intro l
  induction l with
  | nil => rfl
  | cons a l ih =>
    simp only [sortByScoreDesc]
    rw [filter_insertDesc]
    by_cases h : a.score = s <;> simp [List.filter_cons, h, ih]

/-! ### Lemmas for failure tolerance and boundary limits -/

theorem buildScoresAux_skip (lookup : String → Option (List Food)) (n : Nat) :
    ∀ (kws : List String) (idx : Nat) (es : List ScoredMatch),
    (∀ kw ∈ kws, lookup kw = none ∨ lookup kw = some []) →
    buildScoresAux lookup n idx kws es = es := by
  intro kws
  induction kws with
  | nil => intro idx es _; rfl
  | cons kw kws ih =>
    intro idx es h
    have htail : ∀ kw ∈ kws, lookup kw = none ∨ lookup kw = some [] :=
      fun kw hk => h kw (List.mem_cons_of_mem _ hk)
    rcases h kw (List.mem_cons_self kw kws) with h1 | h1 <;>
      simp [buildScoresAux, h1, processKeyword, ih _ _ htail]

theorem buildScoresAux_getD (lookup : String → Option (List Food)) (n : Nat) :
    ∀ (kws : List String) (idx : Nat) (es : List ScoredMatch),
    buildScoresAux lookup n idx kws es =
      buildScoresAux (fun kw => some ((lookup kw).getD [])) n idx kws es := by
  intro kws
  induction kws with
  | nil => intro idx es; rfl
  | cons kw kws ih =>
    intro idx es
    cases hlk : lookup kw with
    | none => simp [buildScoresAux, hlk, processKeyword, ih]
    | some foods => simp [buildScoresAux, hlk, ih]

/-! ### Claim theorems about the relevance ranker -/

/-- Claim C2: the ranking result is the scored-match table stably sorted
by score descending (a permutation of the table, sorted, with ties kept
in table order), truncated to `max_total` and projected to the foods; the
table records each id at its first-insertion position; the result has no
duplicate ids, at most `max_total` entries, and no more entries than
there are distinct item ids seen across all lookups. -/
theorem rank_result_c2 :
    ∀ (lookup : String → Option (List Food)) (keywords : List String) (mt : Nat),
    search_matching_foods lookup keywords mt =
      ((sortByScoreDesc (buildScores lookup keywords)).take mt).map (fun e => e.food) ∧
    List.Perm (sortByScoreDesc (buildScores lookup keywords))
      (buildScores lookup keywords) ∧
    List.Pairwise (fun a b => b.score ≤ a.score)
      (sortByScoreDesc (buildScores lookup keywords)) ∧
    (∀ s : Nat,
      (sortByScoreDesc (buildScores lookup keywords)).filter (fun e => e.score = s) =
        (buildScores lookup keywords).filter (fun e => e.score = s)) ∧
    (∀ (es : List ScoredMatch) (f : Food) (s : Nat) (kw : String),
      (updateScores es f s kw).map (fun e => e.food.id) =
        if f.id ∈ es.map (fun e => e.food.id) then es.map (fun e => e.food.id)
        else es.map (fun e => e.food.id) ++ [f.id]) ∧
    ((search_matching_foods lookup keywords mt).map Food.id).Nodup ∧
    (search_matching_foods lookup keywords mt).length ≤ mt ∧
    (search_matching_foods lookup keywords mt).length ≤
      ((seenFoods lookup keywords).map Food.id).dedup.length := by
  intro lookup keywords mt
  have hnodup_sort : ((sortByScoreDesc (buildScores lookup keywords)).map
      (fun e => e.food.id)).Nodup :=
    (((sortByScoreDesc_perm (buildScores lookup keywords)).map
      (fun e => e.food.id)).nodup_iff).mpr (buildScores_nodup_id lookup keywords)
  have hres : (search_matching_foods lookup keywords mt).map Food.id =
      ((sortByScoreDesc (buildScores lookup keywords)).take mt).map
        (fun e => e.food.id) := by
    simp [search_matching_foods, List.map_map]
    rfl
  refine ⟨rfl, sortByScoreDesc_perm _, sortByScoreDesc_sorted _,
    fun s => filter_sortByScoreDesc s _, updateScores_map_id, ?_, ?_, ?_⟩
  · rw [hres]
    exact List.Nodup.sublist (List.Sublist.map _ (List.take_sublist _ _)) hnodup_sort
  · simp [search_matching_foods]
  · have hsub : (buildScores lookup keywords).map (fun e => e.food.id) ⊆
        ((seenFoods lookup keywords).map Food.id).dedup :=
      fun x hx => List.mem_dedup.mpr (buildScores_id_subset lookup keywords hx)
    have hlen := (List.subperm_of_subset (buildScores_nodup_id lookup keywords)
      hsub).length_le
    have hlen2 : (search_matching_foods lookup keywords mt).length ≤
        (buildScores lookup keywords).length := by
      simp only [search_matching_foods, List.length_map, List.length_take]
      exact Nat.le_trans (Nat.min_le_right _ _)
        (Nat.le_of_eq (sortByScoreDesc_perm _).length_eq)
    simp only [List.length_map] at hlen
    exact Nat.le_trans hlen2 hlen

/-- Claim C3: the score of an item found for the keyword at index `idx`
of `n` keywords is `(n - idx) + match_quality` with quality 10 for an
exact (case-folded) name match, 5 for a prefix match, 1 otherwise; on
keywords ["burger", "fries"] over a catalog with items "Burger" and
"Veggie Burger Wrap", the exact match scores 12 against 3 and is ranked
first. -/
theorem score_formula_c3 :
    (∀ (n idx : Nat) (f : Food) (kw : String),
      scoreFor n idx f kw = (n - idx) + matchQuality f.name kw) ∧
    (∀ (name kw : String),
      (strLower name = strLower kw → matchQuality name kw = 10) ∧
      (strLower name ≠ strLower kw →
        (strLower kw).data.isPrefixOf (strLower name).data = true →
        matchQuality name kw = 5) ∧
      (strLower name ≠ strLower kw →
        (strLower kw).data.isPrefixOf (strLower name).data = false →
        matchQuality name kw = 1)) ∧
    buildScores (catalogLookup [⟨"1", "Burger"⟩, ⟨"2", "Veggie Burger Wrap"⟩] 3)
        ["burger", "fries"] =
      [⟨⟨"1", "Burger"⟩, 12, "burger"⟩, ⟨⟨"2", "Veggie Burger Wrap"⟩, 3, "burger"⟩] ∧
    searchWithCatalog [⟨"1", "Burger"⟩, ⟨"2", "Veggie Burger Wrap"⟩]
        ["burger", "fries"] =
      [⟨"1", "Burger"⟩, ⟨"2", "Veggie Burger Wrap"⟩] := by
  refine ⟨fun n idx f kw => rfl, fun name kw => ⟨?_, ?_, ?_⟩, by decide, by decide⟩
  · intro h; simp [matchQuality, h]
  · intro h hp; simp [matchQuality, h, hp]
  · intro h hp; simp [matchQuality, h, hp]

/-- Witness for C3 at concrete inputs: the three quality cases evaluated. -/
theorem score_formula_c3_witness :
    matchQuality "Burger" "burger" = 10 ∧
    matchQuality "Burger King" "burger" = 5 ∧
    matchQuality "Veggie Burger Wrap" "burger" = 1 :=
  ⟨(score_formula_c3.2.1 "Burger" "burger").1 (by decide),
   (score_formula_c3.2.1 "Burger King" "burger").2.1 (by decide) (by decide),
   (score_formula_c3.2.1 "Veggie Burger Wrap" "burger").2.2 (by decide) (by decide)⟩

/-- Claim C4: an entry of the scored-match table is replaced exactly when
the new total score strictly exceeds the stored one (a non-exceeding
score leaves the table untouched, other ids are unaffected), and after a
whole run the stored entry of each id carries the maximum score observed
for that id. -/
theorem score_table_invariant_c4 :
    (∀ (es : List ScoredMatch) (f : Food) (s : Nat) (kw : String),
      findEntry f.id (updateScores es f s kw) =
        some (match findEntry f.id es with
              | none => ⟨f, s, kw⟩
              | some e => if e.score < s then ⟨f, s, kw⟩ else e)) ∧
    (∀ (es : List ScoredMatch) (f : Food) (s : Nat) (kw : String) (j : String),
      j ≠ f.id → findEntry j (updateScores es f s kw) = findEntry j es) ∧
    (∀ (es : List ScoredMatch) (f : Food) (s : Nat) (kw : String) (e : ScoredMatch),
      findEntry f.id es = some e → s ≤ e.score → updateScores es f s kw = es) ∧
    (∀ (lookup : String → Option (List Food)) (keywords : List String),
      buildScores lookup keywords = applyObs (obsOf lookup keywords) []) ∧
    (∀ (lookup : String → Option (List Food)) (keywords : List String)
       (i : String) (e : ScoredMatch),
      findEntry i (buildScores lookup keywords) = some e →
      e.score ∈ scoresFor i (obsOf lookup keywords) ∧
      ∀ s ∈ scoresFor i (obsOf lookup keywords), s ≤ e.score) := by
  refine ⟨findEntry_updateScores_same, findEntry_updateScores_other,
    updateScores_no_exceed, buildScores_eq_applyObs, ?_⟩
  intro lookup keywords i e he
  rw [buildScores_eq_applyObs] at he
  obtain ⟨ha, hb, _⟩ := applyObs_invariant (obsOf lookup keywords) [] i e he
  rcases ha with ha | ha
  · exact absurd ha (by simp [findEntry])
  · exact ⟨ha, hb⟩

/-- Witness for C4 at a concrete table: a non-exceeding update (5 against
a stored 9) is a no-op. -/
theorem score_table_invariant_c4_witness :
    updateScores [⟨⟨"a", "Apple"⟩, 9, "apple"⟩] ⟨"a", "Apple"⟩ 5 "appl" =
      [⟨⟨"a", "Apple"⟩, 9, "apple"⟩] :=
  score_table_invariant_c4.2.2.1 [⟨⟨"a", "Apple"⟩, 9, "apple"⟩] ⟨"a", "Apple"⟩ 5
    "appl" ⟨⟨"a", "Apple"⟩, 9, "apple"⟩ (by decide) (by decide)

/-- Claim C7: a failed lookup only silences its keyword (ranking is the
same as if that lookup had returned no rows); if every lookup fails the
result is empty; concretely, with the middle of three keywords failing,
the matches of keywords 1 and 3 are still returned. -/
theorem failure_tolerance_c7 :
    (∀ (lookup : String → Option (List Food)) (keywords : List String) (mt : Nat),
      search_matching_foods lookup keywords mt =
        search_matching_foods (fun kw => some ((lookup kw).getD [])) keywords mt) ∧
    (∀ (lookup : String → Option (List Food)) (keywords : List String) (mt : Nat),
      (∀ kw ∈ keywords, lookup kw = none) →
      search_matching_foods lookup keywords mt = []) ∧
    failMidLookup "soup" = none ∧
    search_matching_foods failMidLookup ["pasta", "soup", "bread"] 8 =
      [⟨"p1", "Pasta"⟩, ⟨"b1", "Bread"⟩] := by
  refine ⟨?_, ?_, by decide, by decide⟩
  · intro lookup keywords mt
    unfold search_matching_foods buildScores
    rw [buildScoresAux_getD]
  · intro lookup keywords mt h
    unfold search_matching_foods buildScores
    rw [buildScoresAux_skip lookup keywords.length keywords 0 []
      (fun kw hk => Or.inl (h kw hk))]
    simp [sortByScoreDesc]

/-- Witness for C7: a lookup that always fails yields the empty ranking. -/
theorem failure_tolerance_c7_witness :
    search_matching_foods (fun _ => (none : Option (List Food))) ["pizza"] 8 = [] :=
  failure_tolerance_c7.2.1 (fun _ => none) ["pizza"] 8 (fun _ _ => rfl)

/-- Claim C8: `max_total = 0` always yields an empty result, and a
per-keyword limit of 0 makes every lookup return no rows, so the result
is empty as well. -/
theorem boundary_limits_c8 :
    (∀ (lookup : String → Option (List Food)) (keywords : List String),
      search_matching_foods lookup keywords 0 = []) ∧
    (∀ (catalog : List Food) (keywords : List String) (mt : Nat),
      search_matching_foods (catalogLookup catalog 0) keywords mt = []) := by
  constructor
  · intro lookup keywords
    simp [search_matching_foods]
  · intro catalog keywords mt
    have h : ∀ kw ∈ keywords, catalogLookup catalog 0 kw = none ∨
        catalogLookup catalog 0 kw = some [] := by
      intro kw _
      right
      simp [catalogLookup]
    unfold search_matching_foods buildScores
    rw [buildScoresAux_skip _ keywords.length keywords 0 [] h]
    simp [sortByScoreDesc]

end CalorieApi
